import Mathlib

/-
  Verification of the Mutation++ chemical-kinetics rate-coefficient core:
  rate-law variants (src/kinetics/RateLaws.h), the RateManager
  classification and update orchestration (src/kinetics/RateManager.cpp),
  and the ThirdbodyManager (src/kinetics/ThirdBodyManager.h).

  C++ doubles are embedded as real numbers; stateful buffer writes are
  embedded as explicit functional updates on a buffer of type Nat to Real.
-/

namespace MppKinetics

noncomputable section

/-! ## Rate-law variants, from src/kinetics/RateLaws.h -/

/-- Arrhenius rate law coefficients: ln of the pre-exponential factor,
temperature exponent, activation temperature. From class Arrhenius. -/
structure Arrhenius where
  m_lnA : ℝ
  m_n : ℝ
  m_temp : ℝ

/-- Arrhenius::getLnRate, RateLaws.h lines 73-75:
lnA + n * lnT - temp * invT. -/
def Arrhenius.getLnRate (a : Arrhenius) (lnT invT : ℝ) : ℝ :=
  a.m_lnA + a.m_n * lnT - a.m_temp * invT

/-- rationalExp rate law coefficients. From class rationalExp. -/
structure rationalExp where
  m_n : ℝ
  m_temp : ℝ
  m_a0 : ℝ
  m_a1 : ℝ
  m_a2 : ℝ
  m_b0 : ℝ
  m_b1 : ℝ
  m_b2 : ℝ
  m_b3 : ℝ

/-- rationalExp::getLnRate, RateLaws.h lines 127-129:
n * lnT - temp * invT + log of a quadratic over cubic ratio in T. -/
def rationalExp.getLnRate (r : rationalExp) (lnT invT T sqT : ℝ) : ℝ :=
  r.m_n * lnT - r.m_temp * invT +
    Real.log ((r.m_a0 + r.m_a1 * T + r.m_a2 * sqT) /
      (r.m_b0 + r.m_b1 * T + r.m_b2 * sqT + r.m_b3 * sqT * T))

/-- Constant rate law coefficient. From class constRate. -/
structure constRate where
  m_lnA : ℝ

/-- constRate::getLnRate, RateLaws.h lines 189-191. -/
def constRate.getLnRate (c : constRate) : ℝ :=
  c.m_lnA

/-- expRat33 rate law coefficients: four numerator and three denominator
coefficients. From class expRat33. -/
structure expRat33 where
  m_a0 : ℝ
  m_a1 : ℝ
  m_a2 : ℝ
  m_a3 : ℝ
  m_b0 : ℝ
  m_b1 : ℝ
  m_b2 : ℝ

/-- expRat33::getLnRate, RateLaws.h lines 226-229: a ratio of two cubic
polynomials in T, in Horner form, with no logarithm taken. -/
def expRat33.getLnRate (e : expRat33) (T : ℝ) : ℝ :=
  (e.m_a0 + (e.m_a1 + (e.m_a2 + e.m_a3 * T) * T) * T) /
    (e.m_b0 + (e.m_b1 + (e.m_b2 + T) * T) * T)

/-- The polymorphic RateLaw base, embedded as a closed sum over the four
concrete variants declared in RateLaws.h. -/
inductive RateLaw where
  | arr : Arrhenius → RateLaw
  | cr : constRate → RateLaw
  | rexp : rationalExp → RateLaw
  | er33 : expRat33 → RateLaw

/-! ## Temperature selectors and state, from src/kinetics/RateManager.cpp -/

/-- Modelled from the spec: the thermodynamic state snapshot, reduced to the
three scalar accessors the selectors read (StateModel.h is not among the
given sources; spec section 4.2 and 6 list T, Te and Tv). -/
structure StateModel where
  T : ℝ
  Te : ℝ
  Tv : ℝ

/-- The three temperature selector classes generated by the
TEMPERATURE_SELECTOR macro in RateManager.cpp lines 43-59. -/
inductive TempSelector where
  | TSelector
  | TeSelector
  | ParkSelector
deriving DecidableEq

/-- getT of each selector: T, Te, or sqrt(T * Tv). RateManager.cpp 53-59. -/
def TempSelector.getT : TempSelector → StateModel → ℝ
  | .TSelector, s => s.T
  | .TeSelector, s => s.Te
  | .ParkSelector, s => Real.sqrt (s.T * s.Tv)

/-- Reaction type categories. Modelled from the spec: Reaction.h with the
ReactionType enumeration is not among the given sources; the constructors
are the nineteen types named by the SELECT_RATE_LAWS table in
RateManager.cpp lines 94-112, plus a catch-all for unlisted types which
the template default maps to (T, T). -/
inductive ReactionType where
  | ASSOCIATIVE_IONIZATION
  | DISSOCIATIVE_RECOMBINATION
  | ASSOCIATIVE_DETACHMENT
  | DISSOCIATIVE_ATTACHMENT
  | DISSOCIATION_E
  | RECOMBINATION_E
  | DISSOCIATION_M
  | RECOMBINATION_M
  | IONIZATION_E
  | ION_RECOMBINATION_E
  | IONIZATION_M
  | ION_RECOMBINATION_M
  | ELECTRONIC_ATTACHMENT_M
  | ELECTRONIC_DETACHMENT_M
  | ELECTRONIC_ATTACHMENT_E
  | ELECTRONIC_DETACHMENT_E
  | EXCHANGE
  | EXCITATION_M
  | EXCITATION_E
  | OTHER_TYPE
deriving DecidableEq

/-- The RateSelector lookup: reaction type to (forward selector, reverse
selector), from the SELECT_RATE_LAWS specializations in RateManager.cpp
lines 94-112, with the template default (T, T) of lines 80-84 for
unlisted types. -/
def RateSelector : ReactionType → TempSelector × TempSelector
  | .ASSOCIATIVE_IONIZATION => (.TSelector, .TeSelector)
  | .DISSOCIATIVE_RECOMBINATION => (.TeSelector, .TSelector)
  | .ASSOCIATIVE_DETACHMENT => (.TSelector, .TeSelector)
  | .DISSOCIATIVE_ATTACHMENT => (.TeSelector, .TSelector)
  | .DISSOCIATION_E => (.TeSelector, .TeSelector)
  | .RECOMBINATION_E => (.TeSelector, .TeSelector)
  | .DISSOCIATION_M => (.ParkSelector, .TSelector)
  | .RECOMBINATION_M => (.TSelector, .ParkSelector)
  | .IONIZATION_E => (.TeSelector, .TeSelector)
  | .ION_RECOMBINATION_E => (.TeSelector, .TeSelector)
  | .IONIZATION_M => (.TSelector, .TSelector)
  | .ION_RECOMBINATION_M => (.TSelector, .TSelector)
  | .ELECTRONIC_ATTACHMENT_M => (.TeSelector, .TSelector)
  | .ELECTRONIC_DETACHMENT_M => (.TSelector, .TeSelector)
  | .ELECTRONIC_ATTACHMENT_E => (.TeSelector, .TeSelector)
  | .ELECTRONIC_DETACHMENT_E => (.TeSelector, .TeSelector)
  | .EXCHANGE => (.TSelector, .TSelector)
  | .EXCITATION_M => (.TSelector, .TSelector)
  | .EXCITATION_E => (.TeSelector, .TeSelector)
  | .OTHER_TYPE => (.TSelector, .TSelector)

/-- Modelled from the spec: the Reaction interface the manager reads
(Reaction.h is not among the given sources): reaction type, the
isReversible flag, the owned rate law, and stoichiometry sufficient to
combine per-species Gibbs energies (spec sections 3 and 6). Stoichiometry
is a list of (species index, signed stoichiometric coefficient) pairs. -/
structure Reaction where
  type : ReactionType
  isReversible : Bool
  rateLaw : RateLaw
  stoich : List (Nat × Int)

/-- Forward selector resolved for a reaction, RateSelector::ForwardGroup. -/
def Reaction.fwdSel (r : Reaction) : TempSelector :=
  (RateSelector r.type).1

/-- Reverse selector resolved for a reaction, RateSelector::ReverseGroup. -/
def Reaction.revSel (r : Reaction) : TempSelector :=
  (RateSelector r.type).2

/-! ## RateManager classification, from RateManager.cpp -/

/-- The three rate-law kinds the manager classifies
(RateManager::addReaction, lines 156-158): Arrhenius, constRate and
rationalExp; groups in the C++ are keyed by C++ type, embedded here as
this tag. -/
inductive LawKind where
  | arrheniusLaw
  | constRateLaw
  | rationalExpLaw
deriving DecidableEq

/-- The runtime classification performed by the typeid tests in
RateManager::addReaction (lines 156-158): expRat33 is not registered and
yields none. -/
def rateLawKind : RateLaw → Option LawKind
  | .arr _ => some .arrheniusLaw
  | .cr _ => some .constRateLaw
  | .rexp _ => some .rationalExpLaw
  | .er33 _ => none

/-- A rate-law group key: the pair (law kind, selector kind). In the C++
a group is the type RateLawGroup1T of a law class and a selector class. -/
structure GroupKey where
  law : LawKind
  sel : TempSelector
deriving DecidableEq

/-- One (slot, rate law) membership entry of a rate-law group, the result
of RateLawGroupCollection::addRateCoefficient. Modelled from the spec:
RateLawGroup.h is not among the given sources; spec section 4.3 describes
a group as an ordered list of (reaction slot index, rate law) entries
keyed by (law kind, selector kind). -/
structure RateEntry where
  key : GroupKey
  slot : Nat
  law : RateLaw

/-- One reverse-branch registration made by
RateLawGroupCollection::addReaction in RateManager::addRate line 247.
Modelled from the spec: RateLawGroup.h is not among the given sources;
spec section 4.4 phase 3 uses these to subtract ln Keq at the reverse
group temperature for every reversible reaction. -/
structure RevEntry where
  key : GroupKey
  rxn : Nat
  reaction : Reaction

/-- The classification state accumulated by RateManager construction:
group membership entries, reverse-branch registrations, the same-selector
copy list m_to_copy, and the irreversible bookkeeping list m_irr. -/
structure RMState where
  entries : List RateEntry
  revs : List RevEntry
  toCopy : List Nat
  irr : List Nat

/-- The empty classification state. -/
def emptyRMState : RMState :=
  ⟨[], [], [], []⟩

/-- RateManager::addRate (RateManager.cpp lines 231-252): insert the
forward entry at slot rxn; if reversible, either record rxn in the copy
list (forward group equals reverse group) or insert a reverse entry at
slot rxn + nr, and register the reaction with its reverse group; if
irreversible, record rxn in m_irr. -/
def addRate (nr : Nat) (kind : LawKind) (rxn : Nat) (r : Reaction)
    (st : RMState) : RMState :=
  let fwdKey : GroupKey := ⟨kind, r.fwdSel⟩
  let revKey : GroupKey := ⟨kind, r.revSel⟩
  let st1 : RMState := { st with entries := st.entries ++ [⟨fwdKey, rxn, r.rateLaw⟩] }
  if r.isReversible then
    let st2 : RMState :=
      if fwdKey = revKey then
        { st1 with toCopy := st1.toCopy ++ [rxn] }
      else
        { st1 with entries := st1.entries ++ [⟨revKey, rxn + nr, r.rateLaw⟩] }
    { st2 with revs := st2.revs ++ [⟨revKey, rxn, r⟩] }
  else
    { st1 with irr := st1.irr ++ [rxn] }

/-- Construction failure: the InvalidInputError thrown by
RateManager::addReaction line 162 when the rate law kind is not
registered. -/
inductive BuildError where
  | invalidRateLaw

/-- RateManager::addReaction (lines 151-165): classify the rate law by
its runtime kind and dispatch through selectRate, which resolves the
(forward, reverse) selector pair of the reaction type; throw for an
unregistered kind. -/
def addReaction (nr : Nat) (rxn : Nat) (r : Reaction) (st : RMState) :
    Except BuildError RMState :=
  match rateLawKind r.rateLaw with
  | some k => .ok (addRate nr k rxn r st)
  | none => .error .invalidRateLaw

/-- The constructor loop of RateManager::RateManager (lines 126-127):
addReaction for each reaction in order, threading the index. -/
def addReactionsFrom (nr : Nat) : Nat → List Reaction → RMState →
    Except BuildError RMState
  | _, [], st => .ok st
  | i, r :: rest, st =>
    match addReaction nr i r st with
    | .ok st1 => addReactionsFrom nr (i + 1) rest st1
    | .error e => .error e

/-- The RateManager after construction: species count, reaction count,
the classification state, and the single storage block of size
2 * nr + ns (RateManager.cpp lines 129-137), embedded as a total buffer
indexed by Nat with region lnkf at [0, nr), lnkb at [nr, 2nr) and gibbs
at [2nr, 2nr + ns). -/
structure RateManager where
  m_ns : Nat
  m_nr : Nat
  st : RMState
  buf : Nat → ℝ

/-- RateManager::RateManager (lines 120-138): run addReaction over every
reaction; only when all succeed is the storage block allocated and
zero-initialized. A thrown classification error aborts construction
before any allocation. -/
def mkRateManager (ns : Nat) (reactions : List Reaction) :
    Except BuildError RateManager :=
  match addReactionsFrom reactions.length 0 reactions emptyRMState with
  | .ok st => .ok ⟨ns, reactions.length, st, fun _ => 0⟩
  | .error e => .error e

/-! ## The update phases, RateManager::update lines 256-271 -/

/-- Modelled from the spec: the thermodynamic collaborator of spec
section 6 — the state snapshot plus the function producing species Gibbs
energy over RT at a given temperature (Thermodynamics and StateModel
sources are not among the given files). -/
structure Thermo where
  state : StateModel
  gibbs : ℝ → Nat → ℝ

/-- Modelled from the spec: the per-member evaluation a RateLawGroup1T
performs (RateLawGroup.h is not among the given sources). Spec section
4.1 and 4.3: the group computes its selector temperature once, derives
ln T, 1/T, T and T squared, and invokes each member rate-law evaluation
with those shared scalars. -/
def evalRateLaw (law : RateLaw) (T : ℝ) : ℝ :=
  match law with
  | .arr a => a.getLnRate (Real.log T) T⁻¹
  | .cr c => c.getLnRate
  | .rexp r => r.getLnRate (Real.log T) T⁻¹ T (T * T)
  | .er33 e => e.getLnRate T

/-- Phase 1, evaluate (RateManager.cpp line 259; group iteration modelled
from spec section 4.3): every group entry writes the ln-rate of its law at
its group selector temperature into the buffer at its assigned slot. -/
def phase1 (entries : List RateEntry) (s : StateModel) (b : Nat → ℝ) :
    Nat → ℝ :=
  entries.foldl
    (fun b2 e => Function.update b2 e.slot (evalRateLaw e.law (e.key.sel.getT s))) b

/-- Phase 2, copy (RateManager.cpp lines 263-267): for every index in
m_to_copy, overwrite the lnkb slot nr + index with the lnkf value at the
same index. -/
def phase2 (nr : Nat) (toCopy : List Nat) (b : Nat → ℝ) : Nat → ℝ :=
  toCopy.foldl (fun b2 idx => Function.update b2 (nr + idx) (b2 idx)) b

/-- Modelled from the spec: ln Keq combined from species Gibbs energies
over RT per reaction stoichiometry (spec section 4.4 phase 3 and section
6; the combining code lives in RateLawGroup.h, not among the given
sources). -/
def lnKeq (g : Nat → ℝ) (stoich : List (Nat × Int)) : ℝ :=
  (stoich.map (fun p => (p.2 : ℝ) * g p.1)).sum

/-- Phase 3, equilibrium correction (RateManager.cpp line 270; group
iteration modelled from spec section 4.4 phase 3): for every registered
reversible reaction, evaluate the species Gibbs energies at its reverse
group temperature, combine them per its stoichiometry into ln Keq, and
subtract from its lnkb slot nr + rxn. -/
def phase3 (nr : Nat) (revs : List RevEntry) (th : Thermo) (b : Nat → ℝ) :
    Nat → ℝ :=
  revs.foldl
    (fun b2 re =>
      Function.update b2 (nr + re.rxn)
        (b2 (nr + re.rxn) -
          lnKeq (th.gibbs (re.key.sel.getT th.state)) re.reaction.stoich)) b

/-- The buffer transformation of one RateManager::update call: evaluate,
then copy, then subtract ln Keq (lines 256-271). -/
def updBuf (nr : Nat) (st : RMState) (th : Thermo) (b : Nat → ℝ) : Nat → ℝ :=
  phase3 nr st.revs th (phase2 nr st.toCopy (phase1 st.entries th.state b))

/-- RateManager::update: mutate the stored block through the three
phases. -/
def RateManager.update (m : RateManager) (th : Thermo) : RateManager :=
  { m with buf := updBuf m.m_nr m.st th m.buf }

/-- The lnkf output array: region [0, nr) of the block. -/
def RateManager.lnkf (m : RateManager) (i : Nat) : ℝ :=
  m.buf i

/-- The lnkb output array: region [nr, 2nr) of the block. -/
def RateManager.lnkb (m : RateManager) (i : Nat) : ℝ :=
  m.buf (m.m_nr + i)

/-- The buffer as it stands immediately after the copy phase of an update
call, before the ln Keq subtraction. -/
def postCopyBuf (m : RateManager) (th : Thermo) : Nat → ℝ :=
  phase2 m.m_nr m.st.toCopy (phase1 m.st.entries th.state m.buf)

/-! ## ThirdbodyManager, from src/kinetics/ThirdBodyManager.h -/

/-- The per-reaction third-body data of class PartialThirdbodyEffs
(lines 44-73): reaction index, species efficiencies, group
efficiencies. -/
structure PartialThirdbodyEffs where
  m_rxn : Nat
  m_effs : List (Nat × ℝ)
  m_groupEffs : List (Nat × ℝ)

/-- PartialThirdbodyEffs::multiplyEfficiencies (lines 54-65): accumulate
concentration times weight over the species list, then group
concentration times weight over the group list, onto the incoming sum,
and multiply the rate of progress at m_rxn in place by the total. -/
def PartialThirdbodyEffs.multiplyEfficiencies (e : PartialThirdbodyEffs)
    (sum : ℝ) (p_s p_g : Nat → ℝ) (p_r : Nat → ℝ) : Nat → ℝ :=
  let s1 := e.m_effs.foldl (fun acc pr => acc + p_s pr.1 * pr.2) sum
  let s2 := e.m_groupEffs.foldl (fun acc pr => acc + p_g pr.1 * pr.2) s1
  Function.update p_r e.m_rxn (p_r e.m_rxn * s2)

/-- The manager state: the list of tracked reactions (lines 80-148). -/
structure ThirdbodyManager where
  m_effs : List PartialThirdbodyEffs

/-- ThirdbodyManager::addReaction (lines 104-119): append one tracked
reaction. -/
def ThirdbodyManager.addReaction (m : ThirdbodyManager) (rxn : Nat)
    (effs gEffs : List (Nat × ℝ)) : ThirdbodyManager :=
  ⟨m.m_effs ++ [⟨rxn, effs, gEffs⟩]⟩

/-- ThirdbodyManager::multiplyThirdbodies (lines 126-136): with sum
started at 0.0, apply multiplyEfficiencies of every tracked reaction to
the rates-of-progress array. The group concentration array p_g is the
lumped-sum output of the thermodynamic collaborator
(sumSgroupMembersValues), modelled from the spec as a given input. -/
def ThirdbodyManager.multiplyThirdbodies (m : ThirdbodyManager)
    (p_s p_g : Nat → ℝ) (p_r : Nat → ℝ) : Nat → ℝ :=
  m.m_effs.foldl (fun r e => e.multiplyEfficiencies 0 p_s p_g r) p_r

/-- The weighted efficiency sum of one tracked reaction, started at 0. -/
def effSum (e : PartialThirdbodyEffs) (p_s p_g : Nat → ℝ) : ℝ :=
  e.m_groupEffs.foldl (fun acc pr => acc + p_g pr.1 * pr.2)
    (e.m_effs.foldl (fun acc pr => acc + p_s pr.1 * pr.2) 0)

/-! ## Closed form of the construction state, for the proofs -/

/-- Componentwise concatenation of two classification states. -/
def RMState.append (a b : RMState) : RMState :=
  ⟨a.entries ++ b.entries, a.revs ++ b.revs, a.toCopy ++ b.toCopy,
    a.irr ++ b.irr⟩

/-- The contribution a single classified reaction makes to the state:
the forward entry at slot i, and for a reversible reaction either the
copy-list index (same group key) or the reverse entry at slot i + nr,
plus the reverse-group registration; an irreversible reaction adds its
index to m_irr. -/
def piecesFor (nr i : Nat) (r : Reaction) : RMState :=
  match rateLawKind r.rateLaw with
  | none => emptyRMState
  | some k =>
    if r.isReversible then
      if (⟨k, r.fwdSel⟩ : GroupKey) = ⟨k, r.revSel⟩ then
        ⟨[⟨⟨k, r.fwdSel⟩, i, r.rateLaw⟩], [⟨⟨k, r.revSel⟩, i, r⟩], [i], []⟩
      else
        ⟨[⟨⟨k, r.fwdSel⟩, i, r.rateLaw⟩, ⟨⟨k, r.revSel⟩, i + nr, r.rateLaw⟩],
          [⟨⟨k, r.revSel⟩, i, r⟩], [], []⟩
    else
      ⟨[⟨⟨k, r.fwdSel⟩, i, r.rateLaw⟩], [], [], [i]⟩

/-- The closed form of the state built by the constructor loop starting
at reaction index j. -/
def buildPieces (nr : Nat) : Nat → List Reaction → RMState
  | _, [] => emptyRMState
  | j, r :: rest => (piecesFor nr j r).append (buildPieces nr (j + 1) rest)

/-- Number of group entries assigned to a given slot. -/
def countSlot (s : Nat) : List RateEntry → Nat
  | [] => 0
  | e :: t => (if e.slot = s then 1 else 0) + countSlot s t

/-- Number of occurrences of an index in a list of indices. -/
def countIdx (x : Nat) : List Nat → Nat
  | [] => 0
  | y :: t => (if y = x then 1 else 0) + countIdx x t

/-- Number of reverse-group registrations for a given reaction index. -/
def countRev (i : Nat) : List RevEntry → Nat
  | [] => 0
  | re :: t => (if re.rxn = i then 1 else 0) + countRev i t

/-! ## Concrete sample data for witnesses and counterexamples -/

/-- A reversible exchange reaction with an Arrhenius rate law. -/
def demoRxn : Reaction :=
  ⟨.EXCHANGE, true, .arr ⟨0, 0, 0⟩, [(0, 1)]⟩

/-- The manager built from the sample reversible reaction. -/
def demoMgr : RateManager :=
  ⟨1, 1, addRate 1 .arrheniusLaw 0 demoRxn emptyRMState, fun _ => 0⟩

/-- A sample thermodynamic input with unit temperatures and zero Gibbs
energies. -/
def demoTh : Thermo :=
  ⟨⟨1, 1, 1⟩, fun _ _ => 0⟩

/-- An irreversible exchange reaction with a constant rate law. -/
def cexRxn : Reaction :=
  ⟨.EXCHANGE, false, .cr ⟨1⟩, []⟩

/-- The manager built from the irreversible sample reaction. -/
def cexMgr : RateManager :=
  ⟨0, 1, addRate 1 .constRateLaw 0 cexRxn emptyRMState, fun _ => 0⟩

/-- A reaction carrying the unregistered expRat33 rate law. -/
def badRxn : Reaction :=
  ⟨.EXCHANGE, true, .er33 ⟨1, 1, 1, 1, 1, 1, 1⟩, []⟩

end

/-! ## Helper lemmas: ThirdbodyManager -/

theorem multiplyEfficiencies_as_update (e : PartialThirdbodyEffs)
    (p_s p_g p_r : Nat → ℝ) :
    e.multiplyEfficiencies 0 p_s p_g p_r =
      Function.update p_r e.m_rxn (p_r e.m_rxn * effSum e p_s p_g) :=
  rfl

theorem thirdbody_fold_not_mem (l : List PartialThirdbodyEffs)
    (p_s p_g : Nat → ℝ) (i : Nat) (hi : ∀ e ∈ l, e.m_rxn ≠ i)
    (p_r : Nat → ℝ) :
    l.foldl (fun r e => e.multiplyEfficiencies 0 p_s p_g r) p_r i = p_r i := by
  induction l generalizing p_r with
  | nil => rfl
  | cons e t ih =>
    have he : e.m_rxn ≠ i := hi e (List.mem_cons_self e t)
    rw [List.foldl_cons, ih (fun x hx => hi x (List.mem_cons_of_mem e hx))]
    rw [multiplyEfficiencies_as_update, Function.update_noteq (Ne.symm he)]

theorem thirdbody_fold_unique (l : List PartialThirdbodyEffs)
    (p_s p_g : Nat → ℝ) (e : PartialThirdbodyEffs)
    (hd : (l.map (fun x => x.m_rxn)).Nodup) (he : e ∈ l) (p_r : Nat → ℝ) :
    l.foldl (fun r x => x.multiplyEfficiencies 0 p_s p_g r) p_r e.m_rxn =
      p_r e.m_rxn * effSum e p_s p_g := by
  induction l generalizing p_r with
  | nil => exact absurd he (List.not_mem_nil e)
  | cons x t ih =>
    rw [List.map_cons, List.nodup_cons] at hd
    rcases List.mem_cons.mp he with h | h
    · subst h
      have hnot : ∀ y ∈ t, y.m_rxn ≠ e.m_rxn := by
        intro y hy hcontra
        exact hd.1 (hcontra ▸ List.mem_map_of_mem (fun z => z.m_rxn) hy)
      rw [List.foldl_cons, thirdbody_fold_not_mem t p_s p_g e.m_rxn hnot,
        multiplyEfficiencies_as_update, Function.update_same]
    · have hx : x.m_rxn ≠ e.m_rxn := by
        intro hcontra
        exact hd.1 (hcontra ▸ List.mem_map_of_mem (fun z => z.m_rxn) h)
      rw [List.foldl_cons, ih hd.2 h, multiplyEfficiencies_as_update,
        Function.update_noteq (Ne.symm hx)]

/-! ## Claim theorems: rate laws and third bodies -/

/-- C6: for every Arrhenius rate law and temperature T strictly positive,
evaluation with lnT = ln T and invT = 1/T returns
ln A + n ln T - Ta / T; in particular with ln A = ln 1e10, n = 0 and
activation temperature 0 the result is exactly ln 1e10. -/
theorem arrhenius_lnRate_formula (a : Arrhenius) (T : ℝ) (hT : 0 < T) :
    a.getLnRate (Real.log T) T⁻¹ =
      a.m_lnA + a.m_n * Real.log T - a.m_temp * T⁻¹
    ∧ (Arrhenius.mk (Real.log 1e10) 0 0).getLnRate (Real.log T) T⁻¹ =
        Real.log 1e10 := by
  refine ⟨rfl, ?_⟩
  simp [Arrhenius.getLnRate]

/-- Witness for C6 at T = 2. -/
theorem arrhenius_lnRate_formula_witness :
    (0 : ℝ) < 2 ∧
      ((Arrhenius.mk 1 2 3).getLnRate (Real.log 2) (2 : ℝ)⁻¹ =
          1 + 2 * Real.log 2 - 3 * (2 : ℝ)⁻¹
        ∧ (Arrhenius.mk (Real.log 1e10) 0 0).getLnRate (Real.log 2) (2 : ℝ)⁻¹ =
            Real.log 1e10) :=
  ⟨by norm_num, arrhenius_lnRate_formula ⟨1, 2, 3⟩ 2 (by norm_num)⟩

/-- C7: for every Arrhenius rate law with temperature exponent n strictly
positive and activation temperature strictly positive, the returned ln k,
evaluated with lnT = ln T and invT = 1/T, is strictly increasing in T
over positive temperatures. -/
theorem arrhenius_lnRate_strictMono (a : Arrhenius) (hn : 0 < a.m_n)
    (hE : 0 < a.m_temp) (T1 T2 : ℝ) (h1 : 0 < T1) (h12 : T1 < T2) :
    a.getLnRate (Real.log T1) T1⁻¹ < a.getLnRate (Real.log T2) T2⁻¹ := by
  have hlog : Real.log T1 < Real.log T2 := Real.log_lt_log h1 h12
  have hinv : T2⁻¹ < T1⁻¹ := by
    have h2 : 0 < T2 := lt_trans h1 h12
    exact (one_div T2) ▸ (one_div T1) ▸ one_div_lt_one_div_of_lt h1 h12
  have hmul1 : a.m_n * Real.log T1 < a.m_n * Real.log T2 :=
    mul_lt_mul_of_pos_left hlog hn
  have hmul2 : a.m_temp * T2⁻¹ < a.m_temp * T1⁻¹ :=
    mul_lt_mul_of_pos_left hinv hE
  unfold Arrhenius.getLnRate
  linarith

/-- Witness for C7 with lnA = 0, n = 1, Ta = 1, T1 = 1, T2 = 2. -/
theorem arrhenius_lnRate_strictMono_witness :
    (0 : ℝ) < 1 ∧ (1 : ℝ) < 2 ∧
      (Arrhenius.mk 0 1 1).getLnRate (Real.log 1) (1 : ℝ)⁻¹ <
        (Arrhenius.mk 0 1 1).getLnRate (Real.log 2) (2 : ℝ)⁻¹ :=
  ⟨by norm_num, by norm_num,
    arrhenius_lnRate_strictMono ⟨0, 1, 1⟩ (by norm_num) (by norm_num) 1 2
      (by norm_num) (by norm_num)⟩

/-- C8: the expRat33 evaluation returns the rate value directly as the
ratio of the cubic numerator a0 + a1 T + a2 T^2 + a3 T^3 over the cubic
denominator b0 + b1 T + b2 T^2 + T^3 with leading coefficient one, with
no logarithm taken; each sibling variant returns a natural logarithm: the
exponential of its result reconstructs the rate itself. -/
theorem expRat33_rate_ratio_no_log (e : expRat33) (a : Arrhenius)
    (c : constRate) (r : rationalExp) (T : ℝ) (hT : 0 < T)
    (hPQ : 0 < (r.m_a0 + r.m_a1 * T + r.m_a2 * (T * T)) /
      (r.m_b0 + r.m_b1 * T + r.m_b2 * (T * T) + r.m_b3 * (T * T) * T)) :
    e.getLnRate T =
      (e.m_a0 + e.m_a1 * T + e.m_a2 * T ^ 2 + e.m_a3 * T ^ 3) /
        (e.m_b0 + e.m_b1 * T + e.m_b2 * T ^ 2 + T ^ 3)
    ∧ Real.exp (a.getLnRate (Real.log T) T⁻¹) =
        Real.exp a.m_lnA * T ^ a.m_n * Real.exp (-(a.m_temp * T⁻¹))
    ∧ Real.exp c.getLnRate = Real.exp c.m_lnA
    ∧ Real.exp (r.getLnRate (Real.log T) T⁻¹ T (T * T)) =
        T ^ r.m_n * Real.exp (-(r.m_temp * T⁻¹)) *
          ((r.m_a0 + r.m_a1 * T + r.m_a2 * (T * T)) /
            (r.m_b0 + r.m_b1 * T + r.m_b2 * (T * T) + r.m_b3 * (T * T) * T)) := by
  refine ⟨?_, ?_, rfl, ?_⟩
  · unfold expRat33.getLnRate
    congr 1 <;> ring
  · rw [Arrhenius.getLnRate, sub_eq_add_neg, Real.exp_add, Real.exp_add,
      Real.rpow_def_of_pos hT, mul_comm (Real.log T)]
  · rw [rationalExp.getLnRate, sub_eq_add_neg, Real.exp_add, Real.exp_add,
      Real.rpow_def_of_pos hT, mul_comm (Real.log T), Real.exp_log hPQ]

/-- Witness for C8 at T = 1 with a rational part equal to one. -/
theorem expRat33_rate_ratio_no_log_witness :
    (0 : ℝ) < 1 ∧
    (0 : ℝ) < ((1 : ℝ) + 0 * 1 + 0 * (1 * 1)) /
      ((1 : ℝ) + 0 * 1 + 0 * (1 * 1) + 0 * (1 * 1) * 1) ∧
    ((expRat33.mk 1 1 1 1 1 1 1).getLnRate 1 =
        ((1 : ℝ) + 1 * 1 + 1 * 1 ^ 2 + 1 * 1 ^ 3) /
          ((1 : ℝ) + 1 * 1 + 1 * 1 ^ 2 + 1 ^ 3)
      ∧ Real.exp ((Arrhenius.mk 0 0 0).getLnRate (Real.log 1) (1 : ℝ)⁻¹) =
          Real.exp 0 * (1 : ℝ) ^ (0 : ℝ) * Real.exp (-(0 * (1 : ℝ)⁻¹))
      ∧ Real.exp (constRate.mk 0).getLnRate = Real.exp 0
      ∧ Real.exp ((rationalExp.mk 0 0 1 0 0 1 0 0 0).getLnRate
            (Real.log 1) (1 : ℝ)⁻¹ 1 (1 * 1)) =
          (1 : ℝ) ^ (0 : ℝ) * Real.exp (-(0 * (1 : ℝ)⁻¹)) *
            (((1 : ℝ) + 0 * 1 + 0 * (1 * 1)) /
              ((1 : ℝ) + 0 * 1 + 0 * (1 * 1) + 0 * (1 * 1) * 1))) :=
  ⟨by norm_num, by norm_num,
    expRat33_rate_ratio_no_log ⟨1, 1, 1, 1, 1, 1, 1⟩ ⟨0, 0, 0⟩ ⟨0⟩
      ⟨0, 0, 1, 0, 0, 1, 0, 0, 0⟩ 1 (by norm_num) (by norm_num)⟩

/-- C2: multiplyThirdbodies multiplies the rate of progress of every
tracked reaction in place by a weighted sum started at zero and
accumulated as concentration times weight over its species list plus
group concentration times weight over its group list; in particular with
concentrations [1, 2], species efficiencies [1, 0.5], no group
efficiencies and initial rate of progress 5, the corrected rate of
progress is 10. -/
theorem thirdbody_multiply_weighted_sum :
    (∀ (m : ThirdbodyManager) (e : PartialThirdbodyEffs)
        (p_s p_g p_r : Nat → ℝ),
        (m.m_effs.map (fun x => x.m_rxn)).Nodup → e ∈ m.m_effs →
        m.multiplyThirdbodies p_s p_g p_r e.m_rxn =
          p_r e.m_rxn * effSum e p_s p_g)
    ∧ (ThirdbodyManager.mk
        [⟨0, [(0, 1), (1, 0.5)], []⟩]).multiplyThirdbodies
        (fun i => if i = 0 then 1 else if i = 1 then 2 else 0)
        (fun _ => 0) (fun _ => 5) 0 = 10 := by
  constructor
  · intro m e p_s p_g p_r hd he
    exact thirdbody_fold_unique m.m_effs p_s p_g e hd he p_r
  · simp only [ThirdbodyManager.multiplyThirdbodies, List.foldl_cons,
      List.foldl_nil, multiplyEfficiencies_as_update, Function.update_same,
      effSum, List.foldl_cons]
    norm_num

/-- Witness for C2 applying the universal part to a one-reaction
manager. -/
theorem thirdbody_multiply_weighted_sum_witness :
    ((ThirdbodyManager.mk [⟨0, [(0, 1)], []⟩]).m_effs.map
        (fun x => x.m_rxn)).Nodup
    ∧ (⟨0, [(0, (1 : ℝ))], []⟩ : PartialThirdbodyEffs) ∈
        (ThirdbodyManager.mk [⟨0, [(0, 1)], []⟩]).m_effs
    ∧ (ThirdbodyManager.mk [⟨0, [(0, 1)], []⟩]).multiplyThirdbodies
        (fun _ => 1) (fun _ => 0) (fun _ => 5)
        (PartialThirdbodyEffs.mk 0 [(0, 1)] []).m_rxn =
      (fun _ : Nat => (5 : ℝ)) (PartialThirdbodyEffs.mk 0 [(0, 1)] []).m_rxn *
        effSum ⟨0, [(0, 1)], []⟩ (fun _ => 1) (fun _ => 0) :=
  ⟨by simp, by simp,
    thirdbody_multiply_weighted_sum.1 ⟨[⟨0, [(0, 1)], []⟩]⟩
      ⟨0, [(0, 1)], []⟩ (fun _ => 1) (fun _ => 0) (fun _ => 5)
      (by simp) (by simp)⟩

/-- C10: multiplyThirdbodies writes only the rates-of-progress entries
whose indices were registered: every index not belonging to any tracked
reaction keeps its incoming value; the concentrations are a read-only
input of the transform. -/
theorem thirdbody_multiply_frame (m : ThirdbodyManager)
    (p_s p_g p_r : Nat → ℝ) (i : Nat)
    (hi : i ∉ m.m_effs.map (fun x => x.m_rxn)) :
    m.multiplyThirdbodies p_s p_g p_r i = p_r i := by
  refine thirdbody_fold_not_mem m.m_effs p_s p_g i ?_ p_r
  intro e he hcontra
  exact hi (hcontra ▸ List.mem_map_of_mem (fun z => z.m_rxn) he)

/-- Witness for C10: index 1 is untouched by a manager tracking only
reaction 0. -/
theorem thirdbody_multiply_frame_witness :
    (1 ∉ (ThirdbodyManager.mk [⟨0, [(0, 1)], []⟩]).m_effs.map
        (fun x => x.m_rxn))
    ∧ (ThirdbodyManager.mk [⟨0, [(0, 1)], []⟩]).multiplyThirdbodies
        (fun _ => 1) (fun _ => 0) (fun _ => 5) 1 = (fun _ : Nat => (5 : ℝ)) 1 :=
  ⟨by simp,
    thirdbody_multiply_frame ⟨[⟨0, [(0, 1)], []⟩]⟩ (fun _ => 1) (fun _ => 0)
      (fun _ => 5) 1 (by simp)⟩

/-! ## Helper lemmas: the constructed classification state -/

theorem RMState.append_empty_left (a : RMState) :
    emptyRMState.append a = a := by
  cases a
  simp [RMState.append, emptyRMState]

theorem RMState.append_assoc (a b c : RMState) :
    (a.append b).append c = a.append (b.append c) := by
  cases a; cases b; cases c
  simp [RMState.append]

theorem addRate_eq_append (nr i : Nat) (r : Reaction) (k : LawKind)
    (hk : rateLawKind r.rateLaw = some k) (st : RMState) :
    addRate nr k i r st = st.append (piecesFor nr i r) := by
  cases st
  unfold addRate piecesFor
  rw [hk]
  by_cases hrev : r.isReversible
  · by_cases hkey : (⟨k, r.fwdSel⟩ : GroupKey) = ⟨k, r.revSel⟩
    · simp [hrev, hkey, RMState.append]
    · simp [hrev, hkey, RMState.append]
  · simp [hrev, RMState.append]

theorem addReaction_some (nr i : Nat) (r : Reaction) (st : RMState)
    (k : LawKind) (hk : rateLawKind r.rateLaw = some k) :
    addReaction nr i r st = .ok (addRate nr k i r st) := by
  unfold addReaction
  rw [hk]

theorem addReaction_none (nr i : Nat) (r : Reaction) (st : RMState)
    (hk : rateLawKind r.rateLaw = none) :
    addReaction nr i r st = .error .invalidRateLaw := by
  unfold addReaction
  rw [hk]

theorem addReactionsFrom_nil (nr i : Nat) (st : RMState) :
    addReactionsFrom nr i [] st = .ok st :=
  rfl

theorem addReactionsFrom_cons (nr i : Nat) (r : Reaction)
    (t : List Reaction) (st : RMState) :
    addReactionsFrom nr i (r :: t) st =
      match addReaction nr i r st with
      | .ok st1 => addReactionsFrom nr (i + 1) t st1
      | .error e => .error e :=
  rfl

theorem addReactionsFrom_cons_some (nr i : Nat) (r : Reaction)
    (t : List Reaction) (st : RMState) (k : LawKind)
    (hk : rateLawKind r.rateLaw = some k) :
    addReactionsFrom nr i (r :: t) st =
      addReactionsFrom nr (i + 1) t (addRate nr k i r st) := by
  rw [addReactionsFrom_cons, addReaction_some nr i r st k hk]

theorem addReactionsFrom_eq_ok (nr : Nat) (rxns : List Reaction) :
    ∀ (i : Nat) (st : RMState),
    (∀ r ∈ rxns, (rateLawKind r.rateLaw).isSome) →
    addReactionsFrom nr i rxns st = .ok (st.append (buildPieces nr i rxns)) := by
  induction rxns with
  | nil =>
    intro i st _
    rw [addReactionsFrom_nil]
    cases st
    simp [buildPieces, RMState.append, emptyRMState]
  | cons r t ih =>
    intro i st h
    obtain ⟨k, hk⟩ := Option.isSome_iff_exists.mp (h r (List.mem_cons_self r t))
    rw [addReactionsFrom_cons_some nr i r t st k hk,
      ih (i + 1) _ (fun x hx => h x (List.mem_cons_of_mem r hx)),
      addRate_eq_append nr i r k hk st, RMState.append_assoc]
    rfl

theorem addReactionsFrom_ok_classifiable (nr : Nat) (rxns : List Reaction) :
    ∀ (i : Nat) (st st2 : RMState),
    addReactionsFrom nr i rxns st = .ok st2 →
    ∀ r ∈ rxns, (rateLawKind r.rateLaw).isSome := by
  induction rxns with
  | nil =>
    intro i st st2 _ r hr
    exact absurd hr (List.not_mem_nil r)
  | cons x t ih =>
    intro i st st2 h r hr
    cases hk : rateLawKind x.rateLaw with
    | none =>
      rw [addReactionsFrom_cons, addReaction_none nr i x st hk] at h
      exact absurd h (by simp)
    | some k =>
      rw [addReactionsFrom_cons_some nr i x t st k hk] at h
      rcases List.mem_cons.mp hr with h1 | h1
      · subst h1
        simp [hk]
      · exact ih (i + 1) _ st2 h r h1

theorem addReactionsFrom_error (nr : Nat) (rxns : List Reaction) :
    ∀ (i : Nat) (st : RMState),
    (∃ r ∈ rxns, rateLawKind r.rateLaw = none) →
    addReactionsFrom nr i rxns st = .error .invalidRateLaw := by
  induction rxns with
  | nil =>
    intro i st h
    obtain ⟨r, hr, _⟩ := h
    exact absurd hr (List.not_mem_nil r)
  | cons x t ih =>
    intro i st h
    cases hk : rateLawKind x.rateLaw with
    | none => rw [addReactionsFrom_cons, addReaction_none nr i x st hk]
    | some k =>
      rw [addReactionsFrom_cons_some nr i x t st k hk]
      obtain ⟨r, hr, hnone⟩ := h
      rcases List.mem_cons.mp hr with h1 | h1
      · subst h1
        rw [hk] at hnone
        exact absurd hnone (by simp)
      · exact ih (i + 1) _ ⟨r, h1, hnone⟩

theorem mkRateManager_ok_facts (ns : Nat) (reactions : List Reaction)
    (m : RateManager)
    (hm : mkRateManager ns reactions = .ok m) :
    m.m_nr = reactions.length ∧ m.buf = (fun _ => 0) ∧
    m.st = buildPieces reactions.length 0 reactions ∧
    ∀ r ∈ reactions, (rateLawKind r.rateLaw).isSome := by
  unfold mkRateManager at hm
  cases hres : addReactionsFrom reactions.length 0 reactions emptyRMState with
  | error e =>
    rw [hres] at hm
    exact absurd hm (by simp)
  | ok st0 =>
    rw [hres] at hm
    have hcl : ∀ r ∈ reactions, (rateLawKind r.rateLaw).isSome :=
      addReactionsFrom_ok_classifiable reactions.length reactions 0
        emptyRMState st0 hres
    have heq := addReactionsFrom_eq_ok reactions.length reactions 0
      emptyRMState hcl
    rw [hres, RMState.append_empty_left] at heq
    have hst0 : st0 = buildPieces reactions.length 0 reactions := by
      injection heq
    have hm2 : (⟨ns, reactions.length, st0, fun _ => 0⟩ : RateManager) = m := by
      injection hm
    subst hm2
    exact ⟨rfl, rfl, by rw [hst0], hcl⟩

/-! ## Helper lemmas: counting -/

theorem countSlot_append (s : Nat) (a b : List RateEntry) :
    countSlot s (a ++ b) = countSlot s a + countSlot s b := by
  induction a with
  | nil => simp [countSlot]
  | cons e t ih =>
    show (if e.slot = s then 1 else 0) + countSlot s (t ++ b) =
      ((if e.slot = s then 1 else 0) + countSlot s t) + countSlot s b
    rw [ih]
    omega

theorem countIdx_append (x : Nat) (a b : List Nat) :
    countIdx x (a ++ b) = countIdx x a + countIdx x b := by
  induction a with
  | nil => simp [countIdx]
  | cons y t ih =>
    show (if y = x then 1 else 0) + countIdx x (t ++ b) =
      ((if y = x then 1 else 0) + countIdx x t) + countIdx x b
    rw [ih]
    omega

theorem countRev_append (i : Nat) (a b : List RevEntry) :
    countRev i (a ++ b) = countRev i a + countRev i b := by
  induction a with
  | nil => simp [countRev]
  | cons re t ih =>
    show (if re.rxn = i then 1 else 0) + countRev i (t ++ b) =
      ((if re.rxn = i then 1 else 0) + countRev i t) + countRev i b
    rw [ih]
    omega

theorem countSlot_eq_zero (s : Nat) (l : List RateEntry) :
    countSlot s l = 0 ↔ ∀ e ∈ l, e.slot ≠ s := by
  induction l with
  | nil => simp [countSlot]
  | cons e t ih =>
    by_cases h : e.slot = s
    · simp [countSlot, h, ih]
    · simp [countSlot, h, ih]

theorem countIdx_eq_zero (x : Nat) (l : List Nat) :
    countIdx x l = 0 ↔ ∀ y ∈ l, y ≠ x := by
  induction l with
  | nil => simp [countIdx]
  | cons y t ih =>
    by_cases h : y = x
    · simp [countIdx, h, ih]
    · simp [countIdx, h, ih]

theorem countRev_eq_zero (i : Nat) (l : List RevEntry) :
    countRev i l = 0 ↔ ∀ re ∈ l, re.rxn ≠ i := by
  induction l with
  | nil => simp [countRev]
  | cons re t ih =>
    by_cases h : re.rxn = i
    · simp [countRev, h, ih]
    · simp [countRev, h, ih]

/-! ## Helper lemmas: the three update phases, pointwise -/

theorem phase1_cons (e : RateEntry) (t : List RateEntry) (stt : StateModel)
    (b : Nat → ℝ) :
    phase1 (e :: t) stt b =
      phase1 t stt
        (Function.update b e.slot (evalRateLaw e.law (e.key.sel.getT stt))) :=
  rfl

theorem phase1_not_hit (stt : StateModel) (s : Nat) :
    ∀ (entries : List RateEntry), (∀ e ∈ entries, e.slot ≠ s) →
    ∀ b : Nat → ℝ, phase1 entries stt b s = b s := by
  intro entries
  induction entries with
  | nil =>
    intro _ b
    rfl
  | cons e t ih =>
    intro h b
    rw [phase1_cons, ih (fun x hx => h x (List.mem_cons_of_mem e hx))]
    exact Function.update_noteq (Ne.symm (h e (List.mem_cons_self e t))) _ _

theorem phase1_unique (stt : StateModel) (s : Nat) (v : ℝ) :
    ∀ (entries : List RateEntry), countSlot s entries = 1 →
    (∀ e ∈ entries, e.slot = s → evalRateLaw e.law (e.key.sel.getT stt) = v) →
    ∀ b : Nat → ℝ, phase1 entries stt b s = v := by
  intro entries
  induction entries with
  | nil =>
    intro hc
    simp [countSlot] at hc
  | cons e t ih =>
    intro hc hv b
    rw [phase1_cons]
    by_cases h : e.slot = s
    · have ht : countSlot s t = 0 := by
        simp only [countSlot, if_pos h] at hc
        omega
      rw [phase1_not_hit stt s t ((countSlot_eq_zero s t).mp ht)]
      rw [h, Function.update_same]
      exact hv e (List.mem_cons_self e t) h
    · have ht : countSlot s t = 1 := by
        simpa only [countSlot, if_neg h, Nat.zero_add] using hc
      exact ih ht (fun x hx hs => hv x (List.mem_cons_of_mem e hx) hs) _

theorem phase2_cons (nr j : Nat) (t : List Nat) (b : Nat → ℝ) :
    phase2 nr (j :: t) b = phase2 nr t (Function.update b (nr + j) (b j)) :=
  rfl

theorem phase2_low (nr s : Nat) (hs : s < nr) :
    ∀ (tc : List Nat) (b : Nat → ℝ), phase2 nr tc b s = b s := by
  intro tc
  induction tc with
  | nil =>
    intro b
    rfl
  | cons j t ih =>
    intro b
    rw [phase2_cons, ih]
    exact Function.update_noteq (by omega) _ _

theorem phase2_not_hit (nr i : Nat) :
    ∀ (tc : List Nat), (∀ j ∈ tc, j ≠ i) →
    ∀ b : Nat → ℝ, phase2 nr tc b (nr + i) = b (nr + i) := by
  intro tc
  induction tc with
  | nil =>
    intro _ b
    rfl
  | cons j t ih =>
    intro h b
    have hj : j ≠ i := h j (List.mem_cons_self j t)
    rw [phase2_cons, ih (fun x hx => h x (List.mem_cons_of_mem j hx))]
    exact Function.update_noteq (by omega) _ _

theorem phase2_unique (nr i : Nat) (hi : i < nr) :
    ∀ (tc : List Nat), countIdx i tc = 1 →
    ∀ b : Nat → ℝ, phase2 nr tc b (nr + i) = b i := by
  intro tc
  induction tc with
  | nil =>
    intro hc
    simp [countIdx] at hc
  | cons j t ih =>
    intro hc b
    rw [phase2_cons]
    by_cases h : j = i
    · have ht : countIdx i t = 0 := by
        simp only [countIdx, if_pos h] at hc
        omega
      rw [phase2_not_hit nr i t ((countIdx_eq_zero i t).mp ht)]
      subst h
      rw [Function.update_same]
    · have ht : countIdx i t = 1 := by
        simpa only [countIdx, if_neg h, Nat.zero_add] using hc
      rw [ih ht]
      exact Function.update_noteq (by omega) _ _

theorem phase3_cons (nr : Nat) (re : RevEntry) (t : List RevEntry)
    (th : Thermo) (b : Nat → ℝ) :
    phase3 nr (re :: t) th b =
      phase3 nr t th
        (Function.update b (nr + re.rxn)
          (b (nr + re.rxn) -
            lnKeq (th.gibbs (re.key.sel.getT th.state)) re.reaction.stoich)) :=
  rfl

theorem phase3_low (nr s : Nat) (hs : s < nr) (th : Thermo) :
    ∀ (revs : List RevEntry) (b : Nat → ℝ), phase3 nr revs th b s = b s := by
  intro revs
  induction revs with
  | nil =>
    intro b
    rfl
  | cons re t ih =>
    intro b
    rw [phase3_cons, ih]
    exact Function.update_noteq (by omega) _ _

theorem phase3_not_hit (nr i : Nat) (th : Thermo) :
    ∀ (revs : List RevEntry), (∀ re ∈ revs, re.rxn ≠ i) →
    ∀ b : Nat → ℝ, phase3 nr revs th b (nr + i) = b (nr + i) := by
  intro revs
  induction revs with
  | nil =>
    intro _ b
    rfl
  | cons re t ih =>
    intro h b
    have hre : re.rxn ≠ i := h re (List.mem_cons_self re t)
    rw [phase3_cons, ih (fun x hx => h x (List.mem_cons_of_mem re hx))]
    exact Function.update_noteq (by omega) _ _

theorem phase3_unique (nr i : Nat) (th : Thermo) (K : ℝ) :
    ∀ (revs : List RevEntry), countRev i revs = 1 →
    (∀ re ∈ revs, re.rxn = i →
      lnKeq (th.gibbs (re.key.sel.getT th.state)) re.reaction.stoich = K) →
    ∀ b : Nat → ℝ, phase3 nr revs th b (nr + i) = b (nr + i) - K := by
  intro revs
  induction revs with
  | nil =>
    intro hc
    simp [countRev] at hc
  | cons re t ih =>
    intro hc hv b
    rw [phase3_cons]
    by_cases h : re.rxn = i
    · have ht : countRev i t = 0 := by
        simp only [countRev, if_pos h] at hc
        omega
      rw [phase3_not_hit nr i th t ((countRev_eq_zero i t).mp ht)]
      rw [h, Function.update_same, hv re (List.mem_cons_self re t) h]
    · have ht : countRev i t = 1 := by
        simpa only [countRev, if_neg h, Nat.zero_add] using hc
      rw [ih ht (fun x hx hs => hv x (List.mem_cons_of_mem re hx) hs),
        Function.update_noteq (show nr + i ≠ nr + re.rxn by omega)]

/-! ## Helper lemmas: per-reaction pieces -/

theorem piecesFor_cases (nr j : Nat) (r : Reaction) (k : LawKind)
    (hk : rateLawKind r.rateLaw = some k) :
    (r.isReversible = true ∧ r.fwdSel = r.revSel ∧
      piecesFor nr j r =
        ⟨[⟨⟨k, r.fwdSel⟩, j, r.rateLaw⟩], [⟨⟨k, r.revSel⟩, j, r⟩], [j], []⟩)
    ∨ (r.isReversible = true ∧ r.fwdSel ≠ r.revSel ∧
      piecesFor nr j r =
        ⟨[⟨⟨k, r.fwdSel⟩, j, r.rateLaw⟩, ⟨⟨k, r.revSel⟩, j + nr, r.rateLaw⟩],
          [⟨⟨k, r.revSel⟩, j, r⟩], [], []⟩)
    ∨ (r.isReversible = false ∧
      piecesFor nr j r = ⟨[⟨⟨k, r.fwdSel⟩, j, r.rateLaw⟩], [], [], [j]⟩) := by
  by_cases hrev : r.isReversible = true
  · by_cases hsel : r.fwdSel = r.revSel
    · refine Or.inl ⟨hrev, hsel, ?_⟩
      simp only [piecesFor, hk]
      rw [if_pos hrev, if_pos (by rw [hsel])]
    · refine Or.inr (Or.inl ⟨hrev, hsel, ?_⟩)
      simp only [piecesFor, hk]
      rw [if_pos hrev, if_neg (fun hc => hsel (congrArg GroupKey.sel hc))]
  · refine Or.inr (Or.inr ⟨by simpa using hrev, ?_⟩)
    simp only [piecesFor, hk]
    rw [if_neg hrev]

theorem piecesFor_entries_slots (nr j : Nat) (r : Reaction) :
    ∀ e ∈ (piecesFor nr j r).entries, e.slot = j ∨ e.slot = j + nr := by
  intro e he
  cases hk : rateLawKind r.rateLaw with
  | none =>
    simp only [piecesFor, hk, emptyRMState] at he
    exact absurd he (List.not_mem_nil e)
  | some k =>
    rcases piecesFor_cases nr j r k hk with ⟨_, _, hpc⟩ | ⟨_, _, hpc⟩ | ⟨_, hpc⟩
    · rw [hpc] at he
      simp only [List.mem_cons, List.not_mem_nil, or_false] at he
      subst he
      exact Or.inl rfl
    · rw [hpc] at he
      simp only [List.mem_cons, List.not_mem_nil, or_false] at he
      rcases he with rfl | rfl
      · exact Or.inl rfl
      · exact Or.inr rfl
    · rw [hpc] at he
      simp only [List.mem_cons, List.not_mem_nil, or_false] at he
      subst he
      exact Or.inl rfl

theorem piecesFor_toCopy_mem (nr j : Nat) (r : Reaction) :
    ∀ x ∈ (piecesFor nr j r).toCopy, x = j := by
  intro x hx
  cases hk : rateLawKind r.rateLaw with
  | none =>
    simp only [piecesFor, hk, emptyRMState] at hx
    exact absurd hx (List.not_mem_nil x)
  | some k =>
    rcases piecesFor_cases nr j r k hk with ⟨_, _, hpc⟩ | ⟨_, _, hpc⟩ | ⟨_, hpc⟩
    · rw [hpc] at hx
      simp only [List.mem_cons, List.not_mem_nil, or_false] at hx
      exact hx
    · rw [hpc] at hx
      exact absurd hx (List.not_mem_nil x)
    · rw [hpc] at hx
      exact absurd hx (List.not_mem_nil x)

theorem piecesFor_revs_mem (nr j : Nat) (r : Reaction) :
    ∀ re ∈ (piecesFor nr j r).revs, re.rxn = j := by
  intro re hre
  cases hk : rateLawKind r.rateLaw with
  | none =>
    simp only [piecesFor, hk, emptyRMState] at hre
    exact absurd hre (List.not_mem_nil re)
  | some k =>
    rcases piecesFor_cases nr j r k hk with ⟨_, _, hpc⟩ | ⟨_, _, hpc⟩ | ⟨_, hpc⟩
    · rw [hpc] at hre
      simp only [List.mem_cons, List.not_mem_nil, or_false] at hre
      subst hre
      rfl
    · rw [hpc] at hre
      simp only [List.mem_cons, List.not_mem_nil, or_false] at hre
      subst hre
      rfl
    · rw [hpc] at hre
      exact absurd hre (List.not_mem_nil re)

/-! ## Helper lemmas: the built state, componentwise -/

theorem buildPieces_cons (nr j : Nat) (r : Reaction) (t : List Reaction) :
    buildPieces nr j (r :: t) =
      (piecesFor nr j r).append (buildPieces nr (j + 1) t) :=
  rfl

theorem RMState.append_entries (a b : RMState) :
    (a.append b).entries = a.entries ++ b.entries :=
  rfl

theorem RMState.append_revs (a b : RMState) :
    (a.append b).revs = a.revs ++ b.revs :=
  rfl

theorem RMState.append_toCopy (a b : RMState) :
    (a.append b).toCopy = a.toCopy ++ b.toCopy :=
  rfl

theorem buildPieces_entries_shape (nr : Nat) (rxns : List Reaction) :
    ∀ (j : Nat), ∀ e ∈ (buildPieces nr j rxns).entries,
      (j ≤ e.slot ∧ e.slot < j + rxns.length) ∨
      (nr + j ≤ e.slot ∧ e.slot < nr + (j + rxns.length)) := by
  induction rxns with
  | nil =>
    intro j e he
    exact absurd he (List.not_mem_nil e)
  | cons r t ih =>
    intro j e he
    rw [buildPieces_cons, RMState.append_entries] at he
    rcases List.mem_append.mp he with h | h
    · rcases piecesFor_entries_slots nr j r e h with h2 | h2
      · left
        simp only [List.length_cons]
        omega
      · right
        simp only [List.length_cons]
        omega
    · rcases ih (j + 1) e h with h2 | h2
      · left
        simp only [List.length_cons]
        omega
      · right
        simp only [List.length_cons]
        omega

theorem buildPieces_toCopy_bounds (nr : Nat) (rxns : List Reaction) :
    ∀ (j : Nat), ∀ x ∈ (buildPieces nr j rxns).toCopy,
      j ≤ x ∧ x < j + rxns.length := by
  induction rxns with
  | nil =>
    intro j x hx
    exact absurd hx (List.not_mem_nil x)
  | cons r t ih =>
    intro j x hx
    rw [buildPieces_cons, RMState.append_toCopy] at hx
    rcases List.mem_append.mp hx with h | h
    · have := piecesFor_toCopy_mem nr j r x h
      simp only [List.length_cons]
      omega
    · have := ih (j + 1) x h
      simp only [List.length_cons]
      omega

theorem buildPieces_revs_bounds (nr : Nat) (rxns : List Reaction) :
    ∀ (j : Nat), ∀ re ∈ (buildPieces nr j rxns).revs,
      j ≤ re.rxn ∧ re.rxn < j + rxns.length := by
  induction rxns with
  | nil =>
    intro j re hre
    exact absurd hre (List.not_mem_nil re)
  | cons r t ih =>
    intro j re hre
    rw [buildPieces_cons, RMState.append_revs] at hre
    rcases List.mem_append.mp hre with h | h
    · have := piecesFor_revs_mem nr j r re h
      simp only [List.length_cons]
      omega
    · have := ih (j + 1) re h
      simp only [List.length_cons]
      omega

theorem buildPieces_entries_facts (nr : Nat) (rxns : List Reaction) :
    ∀ (j p : Nat) (hp : p < rxns.length),
    j + rxns.length ≤ nr →
    (∀ r ∈ rxns, (rateLawKind r.rateLaw).isSome) →
    countSlot (j + p) (buildPieces nr j rxns).entries = 1
    ∧ (∀ e ∈ (buildPieces nr j rxns).entries, e.slot = j + p →
        e.key.sel = (rxns.get ⟨p, hp⟩).fwdSel ∧
          e.law = (rxns.get ⟨p, hp⟩).rateLaw)
    ∧ countSlot (nr + (j + p)) (buildPieces nr j rxns).entries =
        (if (rxns.get ⟨p, hp⟩).isReversible = true ∧
            ¬(rxns.get ⟨p, hp⟩).fwdSel = (rxns.get ⟨p, hp⟩).revSel
          then 1 else 0)
    ∧ (∀ e ∈ (buildPieces nr j rxns).entries, e.slot = nr + (j + p) →
        e.key.sel = (rxns.get ⟨p, hp⟩).revSel ∧
          e.law = (rxns.get ⟨p, hp⟩).rateLaw) := by
  induction rxns with
  | nil =>
    intro j p hp
    exact absurd hp (Nat.not_lt_zero p)
  | cons r t ih =>
    intro j p hp hall hcl
    obtain ⟨k, hk⟩ :=
      Option.isSome_iff_exists.mp (hcl r (List.mem_cons_self r t))
    have hall2 : j + t.length + 1 ≤ nr := by
      simp only [List.length_cons] at hall
      omega
    rw [buildPieces_cons, RMState.append_entries]
    have htail_sh := buildPieces_entries_shape nr t (j + 1)
    cases p with
    | zero =>
      have hget : (r :: t).get ⟨0, hp⟩ = r := rfl
      rw [hget]
      have htail1 : countSlot (j + 0) (buildPieces nr (j + 1) t).entries = 0 :=
        (countSlot_eq_zero _ _).mpr (fun e he => by
          rcases htail_sh e he with h2 | h2 <;> omega)
      have htail2 :
          countSlot (nr + (j + 0)) (buildPieces nr (j + 1) t).entries = 0 :=
        (countSlot_eq_zero _ _).mpr (fun e he => by
          rcases htail_sh e he with h2 | h2 <;> omega)
      rcases piecesFor_cases nr j r k hk with
        ⟨hrev, hsel, hpc⟩ | ⟨hrev, hsel, hpc⟩ | ⟨hrev, hpc⟩
      · -- reversible, same selector: piece entries = [fwd at slot j]
        rw [hpc]
        refine ⟨?_, ?_, ?_, ?_⟩
        · rw [countSlot_append, htail1]
          simp only [countSlot]
          rw [if_pos (show j = j + 0 by omega)]
        · intro e he hs
          rcases List.mem_append.mp he with h | h
          · simp only [List.mem_cons, List.not_mem_nil, or_false] at h
            subst h
            exact ⟨rfl, rfl⟩
          · exfalso
            rcases htail_sh e h with h2 | h2 <;> omega
        · rw [countSlot_append, htail2,
            if_neg (fun hc => hc.2 hsel)]
          simp only [countSlot]
          rw [if_neg (show ¬(j = nr + (j + 0)) by omega)]
        · intro e he hs
          rcases List.mem_append.mp he with h | h
          · simp only [List.mem_cons, List.not_mem_nil, or_false] at h
            subst h
            exact absurd hs (show ¬(j = nr + (j + 0)) by omega)
          · exfalso
            rcases htail_sh e h with h2 | h2 <;> omega
      · -- reversible, different selectors: piece entries = [fwd, rev]
        rw [hpc]
        refine ⟨?_, ?_, ?_, ?_⟩
        · rw [countSlot_append, htail1]
          simp only [countSlot]
          rw [if_pos (show j = j + 0 by omega),
            if_neg (show ¬(j + nr = j + 0) by omega)]
        · intro e he hs
          rcases List.mem_append.mp he with h | h
          · simp only [List.mem_cons, List.not_mem_nil, or_false] at h
            rcases h with rfl | rfl
            · exact ⟨rfl, rfl⟩
            · exact absurd hs (show ¬(j + nr = j + 0) by omega)
          · exfalso
            rcases htail_sh e h with h2 | h2 <;> omega
        · rw [countSlot_append, htail2, if_pos ⟨hrev, hsel⟩]
          simp only [countSlot]
          rw [if_neg (show ¬(j = nr + (j + 0)) by omega),
            if_pos (show j + nr = nr + (j + 0) by omega)]
        · intro e he hs
          rcases List.mem_append.mp he with h | h
          · simp only [List.mem_cons, List.not_mem_nil, or_false] at h
            rcases h with rfl | rfl
            · exact absurd hs (show ¬(j = nr + (j + 0)) by omega)
            · exact ⟨rfl, rfl⟩
          · exfalso
            rcases htail_sh e h with h2 | h2 <;> omega
      · -- irreversible: piece entries = [fwd at slot j]
        rw [hpc]
        refine ⟨?_, ?_, ?_, ?_⟩
        · rw [countSlot_append, htail1]
          simp only [countSlot]
          rw [if_pos (show j = j + 0 by omega)]
        · intro e he hs
          rcases List.mem_append.mp he with h | h
          · simp only [List.mem_cons, List.not_mem_nil, or_false] at h
            subst h
            exact ⟨rfl, rfl⟩
          · exfalso
            rcases htail_sh e h with h2 | h2 <;> omega
        · rw [countSlot_append, htail2,
            if_neg (fun hc => by rw [hrev] at hc; exact absurd hc.1 (by simp))]
          simp only [countSlot]
          rw [if_neg (show ¬(j = nr + (j + 0)) by omega)]
        · intro e he hs
          rcases List.mem_append.mp he with h | h
          · simp only [List.mem_cons, List.not_mem_nil, or_false] at h
            subst h
            exact absurd hs (show ¬(j = nr + (j + 0)) by omega)
          · exfalso
            rcases htail_sh e h with h2 | h2 <;> omega
    | succ p =>
      have hp2 : p < t.length := by
        simp only [List.length_cons] at hp
        omega
      have hall3 : (j + 1) + t.length ≤ nr := by omega
      have hcl2 : ∀ x ∈ t, (rateLawKind x.rateLaw).isSome :=
        fun x hx => hcl x (List.mem_cons_of_mem r hx)
      have ihx := ih (j + 1) p hp2 hall3 hcl2
      have hgets : (r :: t).get ⟨p + 1, hp⟩ = t.get ⟨p, hp2⟩ := rfl
      rw [hgets]
      have harith : j + 1 + p = j + (p + 1) := by omega
      have hpiece_sl := piecesFor_entries_slots nr j r
      have hpiece1 : countSlot (j + (p + 1)) (piecesFor nr j r).entries = 0 :=
        (countSlot_eq_zero _ _).mpr (fun e he => by
          rcases hpiece_sl e he with h2 | h2 <;> omega)
      have hpiece2 :
          countSlot (nr + (j + (p + 1))) (piecesFor nr j r).entries = 0 :=
        (countSlot_eq_zero _ _).mpr (fun e he => by
          rcases hpiece_sl e he with h2 | h2 <;> omega)
      refine ⟨?_, ?_, ?_, ?_⟩
      · rw [countSlot_append, hpiece1, ← harith, ihx.1]
      · intro e he hs
        rcases List.mem_append.mp he with h | h
        · exfalso
          rcases hpiece_sl e h with h2 | h2 <;> omega
        · exact ihx.2.1 e h (by omega)
      · rw [countSlot_append, hpiece2, ← harith, ihx.2.2.1, Nat.zero_add]
      · intro e he hs
        rcases List.mem_append.mp he with h | h
        · exfalso
          rcases hpiece_sl e h with h2 | h2 <;> omega
        · exact ihx.2.2.2 e h (by omega)

theorem buildPieces_toCopy_facts (nr : Nat) (rxns : List Reaction) :
    ∀ (j p : Nat) (hp : p < rxns.length),
    (∀ r ∈ rxns, (rateLawKind r.rateLaw).isSome) →
    countIdx (j + p) (buildPieces nr j rxns).toCopy =
      (if (rxns.get ⟨p, hp⟩).isReversible = true ∧
          (rxns.get ⟨p, hp⟩).fwdSel = (rxns.get ⟨p, hp⟩).revSel
        then 1 else 0) := by
  induction rxns with
  | nil =>
    intro j p hp
    exact absurd hp (Nat.not_lt_zero p)
  | cons r t ih =>
    intro j p hp hcl
    obtain ⟨k, hk⟩ :=
      Option.isSome_iff_exists.mp (hcl r (List.mem_cons_self r t))
    rw [buildPieces_cons, RMState.append_toCopy]
    have htail_b := buildPieces_toCopy_bounds nr t (j + 1)
    cases p with
    | zero =>
      have hget : (r :: t).get ⟨0, hp⟩ = r := rfl
      rw [hget]
      have htail0 : countIdx (j + 0) (buildPieces nr (j + 1) t).toCopy = 0 :=
        (countIdx_eq_zero _ _).mpr (fun x hx => by
          have := htail_b x hx
          omega)
      rcases piecesFor_cases nr j r k hk with
        ⟨hrev, hsel, hpc⟩ | ⟨hrev, hsel, hpc⟩ | ⟨hrev, hpc⟩
      · rw [hpc, countIdx_append, htail0, if_pos ⟨hrev, hsel⟩]
        simp only [countIdx]
        rw [if_pos (show j = j + 0 by omega)]
      · rw [hpc, countIdx_append, htail0, if_neg (fun hc => hsel hc.2)]
        rfl
      · rw [hpc, countIdx_append, htail0,
          if_neg (fun hc => by rw [hrev] at hc; exact absurd hc.1 (by simp))]
        rfl
    | succ p =>
      have hp2 : p < t.length := by
        simp only [List.length_cons] at hp
        omega
      have hcl2 : ∀ x ∈ t, (rateLawKind x.rateLaw).isSome :=
        fun x hx => hcl x (List.mem_cons_of_mem r hx)
      have ihx := ih (j + 1) p hp2 hcl2
      have hgets : (r :: t).get ⟨p + 1, hp⟩ = t.get ⟨p, hp2⟩ := rfl
      rw [hgets]
      have harith : j + 1 + p = j + (p + 1) := by omega
      have hpiece0 : countIdx (j + (p + 1)) (piecesFor nr j r).toCopy = 0 :=
        (countIdx_eq_zero _ _).mpr (fun x hx => by
          have := piecesFor_toCopy_mem nr j r x hx
          omega)
      rw [countIdx_append, hpiece0, ← harith, ihx, Nat.zero_add]

theorem buildPieces_revs_facts (nr : Nat) (rxns : List Reaction) :
    ∀ (j p : Nat) (hp : p < rxns.length),
    (∀ r ∈ rxns, (rateLawKind r.rateLaw).isSome) →
    countRev (j + p) (buildPieces nr j rxns).revs =
      (if (rxns.get ⟨p, hp⟩).isReversible = true then 1 else 0)
    ∧ (∀ re ∈ (buildPieces nr j rxns).revs, re.rxn = j + p →
        re.key.sel = (rxns.get ⟨p, hp⟩).revSel ∧
          re.reaction = rxns.get ⟨p, hp⟩) := by
  induction rxns with
  | nil =>
    intro j p hp
    exact absurd hp (Nat.not_lt_zero p)
  | cons r t ih =>
    intro j p hp hcl
    obtain ⟨k, hk⟩ :=
      Option.isSome_iff_exists.mp (hcl r (List.mem_cons_self r t))
    rw [buildPieces_cons, RMState.append_revs]
    have htail_b := buildPieces_revs_bounds nr t (j + 1)
    cases p with
    | zero =>
      have hget : (r :: t).get ⟨0, hp⟩ = r := rfl
      rw [hget]
      have htail0 : countRev (j + 0) (buildPieces nr (j + 1) t).revs = 0 :=
        (countRev_eq_zero _ _).mpr (fun re hre => by
          have := htail_b re hre
          omega)
      have htailvac : ∀ re ∈ (buildPieces nr (j + 1) t).revs,
          re.rxn = j + 0 → re.key.sel = r.revSel ∧ re.reaction = r := by
        intro re hre hs
        exfalso
        have := htail_b re hre
        omega
      rcases piecesFor_cases nr j r k hk with
        ⟨hrev, hsel, hpc⟩ | ⟨hrev, hsel, hpc⟩ | ⟨hrev, hpc⟩
      · rw [hpc]
        constructor
        · rw [countRev_append, htail0, if_pos hrev]
          simp only [countRev]
          rw [if_pos (show j = j + 0 by omega)]
        · intro re hre hs
          rcases List.mem_append.mp hre with h | h
          · simp only [List.mem_cons, List.not_mem_nil, or_false] at h
            subst h
            exact ⟨rfl, rfl⟩
          · exact htailvac re h hs
      · rw [hpc]
        constructor
        · rw [countRev_append, htail0, if_pos hrev]
          simp only [countRev]
          rw [if_pos (show j = j + 0 by omega)]
        · intro re hre hs
          rcases List.mem_append.mp hre with h | h
          · simp only [List.mem_cons, List.not_mem_nil, or_false] at h
            subst h
            exact ⟨rfl, rfl⟩
          · exact htailvac re h hs
      · rw [hpc]
        constructor
        · rw [countRev_append, htail0,
            if_neg (fun hc => by rw [hrev] at hc; exact absurd hc (by simp))]
          rfl
        · intro re hre hs
          rcases List.mem_append.mp hre with h | h
          · exact absurd h (List.not_mem_nil re)
          · exact htailvac re h hs
    | succ p =>
      have hp2 : p < t.length := by
        simp only [List.length_cons] at hp
        omega
      have hcl2 : ∀ x ∈ t, (rateLawKind x.rateLaw).isSome :=
        fun x hx => hcl x (List.mem_cons_of_mem r hx)
      have ihx := ih (j + 1) p hp2 hcl2
      have hgets : (r :: t).get ⟨p + 1, hp⟩ = t.get ⟨p, hp2⟩ := rfl
      rw [hgets]
      have harith : j + 1 + p = j + (p + 1) := by omega
      have hpiece0 : countRev (j + (p + 1)) (piecesFor nr j r).revs = 0 :=
        (countRev_eq_zero _ _).mpr (fun re hre => by
          have := piecesFor_revs_mem nr j r re hre
          omega)
      constructor
      · rw [countRev_append, hpiece0, ← harith, ihx.1, Nat.zero_add]
      · intro re hre hs
        rcases List.mem_append.mp hre with h | h
        · exfalso
          have := piecesFor_revs_mem nr j r re h
          omega
        · exact ihx.2 re h (by omega)

theorem manager_facts (ns : Nat) (reactions : List Reaction)
    (m : RateManager) (hm : mkRateManager ns reactions = .ok m) (i : Nat)
    (hi : i < reactions.length) :
    m.m_nr = reactions.length
    ∧ countSlot i m.st.entries = 1
    ∧ (∀ e ∈ m.st.entries, e.slot = i →
        e.key.sel = (reactions.get ⟨i, hi⟩).fwdSel ∧
          e.law = (reactions.get ⟨i, hi⟩).rateLaw)
    ∧ countSlot (m.m_nr + i) m.st.entries =
        (if (reactions.get ⟨i, hi⟩).isReversible = true ∧
            ¬(reactions.get ⟨i, hi⟩).fwdSel = (reactions.get ⟨i, hi⟩).revSel
          then 1 else 0)
    ∧ (∀ e ∈ m.st.entries, e.slot = m.m_nr + i →
        e.key.sel = (reactions.get ⟨i, hi⟩).revSel ∧
          e.law = (reactions.get ⟨i, hi⟩).rateLaw)
    ∧ countIdx i m.st.toCopy =
        (if (reactions.get ⟨i, hi⟩).isReversible = true ∧
            (reactions.get ⟨i, hi⟩).fwdSel = (reactions.get ⟨i, hi⟩).revSel
          then 1 else 0)
    ∧ countRev i m.st.revs =
        (if (reactions.get ⟨i, hi⟩).isReversible = true then 1 else 0)
    ∧ (∀ re ∈ m.st.revs, re.rxn = i →
        re.key.sel = (reactions.get ⟨i, hi⟩).revSel ∧
          re.reaction = reactions.get ⟨i, hi⟩) := by
  obtain ⟨hnr, hbuf, hst, hcl⟩ := mkRateManager_ok_facts ns reactions m hm
  have h1 := buildPieces_entries_facts reactions.length reactions 0 i hi
    (by omega) hcl
  have h2 := buildPieces_toCopy_facts reactions.length reactions 0 i hi hcl
  have h3 := buildPieces_revs_facts reactions.length reactions 0 i hi hcl
  rw [← hst] at h1 h2 h3
  simp only [Nat.zero_add] at h1 h2 h3
  rw [hnr]
  exact ⟨rfl, h1.1, h1.2.1, h1.2.2.1, h1.2.2.2, h2, h3.1, h3.2⟩

theorem updBuf_lnkf_char (ns : Nat) (reactions : List Reaction)
    (m : RateManager) (th : Thermo)
    (hm : mkRateManager ns reactions = .ok m) (i : Nat)
    (hi : i < reactions.length) :
    ∀ b : Nat → ℝ,
      phase2 m.m_nr m.st.toCopy (phase1 m.st.entries th.state b) i =
        evalRateLaw (reactions.get ⟨i, hi⟩).rateLaw
          ((reactions.get ⟨i, hi⟩).fwdSel.getT th.state)
      ∧ updBuf m.m_nr m.st th b i =
          evalRateLaw (reactions.get ⟨i, hi⟩).rateLaw
            ((reactions.get ⟨i, hi⟩).fwdSel.getT th.state) := by
  intro b
  obtain ⟨hnr, hc1, hch1, _, _, _, _, _⟩ :=
    manager_facts ns reactions m hm i hi
  have hilt : i < m.m_nr := by omega
  have hph1 : phase1 m.st.entries th.state b i =
      evalRateLaw (reactions.get ⟨i, hi⟩).rateLaw
        ((reactions.get ⟨i, hi⟩).fwdSel.getT th.state) :=
    phase1_unique th.state i _ m.st.entries hc1
      (fun e he hs => by rw [(hch1 e he hs).1, (hch1 e he hs).2]) b
  refine ⟨?_, ?_⟩
  · rw [phase2_low m.m_nr i hilt, hph1]
  · unfold updBuf
    rw [phase3_low m.m_nr i hilt, phase2_low m.m_nr i hilt, hph1]

theorem updBuf_lnkb_rev_char (ns : Nat) (reactions : List Reaction)
    (m : RateManager) (th : Thermo)
    (hm : mkRateManager ns reactions = .ok m) (i : Nat)
    (hi : i < reactions.length)
    (hrev : (reactions.get ⟨i, hi⟩).isReversible = true) :
    ∀ b : Nat → ℝ,
      phase2 m.m_nr m.st.toCopy (phase1 m.st.entries th.state b)
          (m.m_nr + i) =
        evalRateLaw (reactions.get ⟨i, hi⟩).rateLaw
          ((reactions.get ⟨i, hi⟩).revSel.getT th.state)
      ∧ updBuf m.m_nr m.st th b (m.m_nr + i) =
          evalRateLaw (reactions.get ⟨i, hi⟩).rateLaw
            ((reactions.get ⟨i, hi⟩).revSel.getT th.state) -
            lnKeq (th.gibbs ((reactions.get ⟨i, hi⟩).revSel.getT th.state))
              (reactions.get ⟨i, hi⟩).stoich := by
  intro b
  obtain ⟨hnr, hc1, hch1, hcr, hchr, hcc, hcv, hchv⟩ :=
    manager_facts ns reactions m hm i hi
  have hilt : i < m.m_nr := by omega
  have hpost : phase2 m.m_nr m.st.toCopy (phase1 m.st.entries th.state b)
      (m.m_nr + i) =
      evalRateLaw (reactions.get ⟨i, hi⟩).rateLaw
        ((reactions.get ⟨i, hi⟩).revSel.getT th.state) := by
    by_cases hsel : (reactions.get ⟨i, hi⟩).fwdSel =
        (reactions.get ⟨i, hi⟩).revSel
    · have hcc1 : countIdx i m.st.toCopy = 1 := by
        rw [hcc, if_pos ⟨hrev, hsel⟩]
      rw [phase2_unique m.m_nr i hilt m.st.toCopy hcc1]
      have := phase1_unique th.state i _ m.st.entries hc1
        (fun e he hs => by rw [(hch1 e he hs).1, (hch1 e he hs).2]) b
      rw [this, hsel]
    · have hcc0 : countIdx i m.st.toCopy = 0 := by
        rw [hcc, if_neg (fun hc => hsel hc.2)]
      rw [phase2_not_hit m.m_nr i m.st.toCopy
        ((countIdx_eq_zero i m.st.toCopy).mp hcc0)]
      have hcr1 : countSlot (m.m_nr + i) m.st.entries = 1 := by
        rw [hcr, if_pos ⟨hrev, hsel⟩]
      exact phase1_unique th.state (m.m_nr + i) _ m.st.entries hcr1
        (fun e he hs => by rw [(hchr e he hs).1, (hchr e he hs).2]) b
  have hcv1 : countRev i m.st.revs = 1 := by
    rw [hcv, if_pos hrev]
  refine ⟨hpost, ?_⟩
  unfold updBuf
  rw [phase3_unique m.m_nr i th _ m.st.revs hcv1
    (fun re hre hs => by rw [(hchv re hre hs).1, (hchv re hre hs).2]) _,
    hpost]

theorem updBuf_lnkb_irrev_char (ns : Nat) (reactions : List Reaction)
    (m : RateManager) (th : Thermo)
    (hm : mkRateManager ns reactions = .ok m) (i : Nat)
    (hi : i < reactions.length)
    (hirr : (reactions.get ⟨i, hi⟩).isReversible = false) :
    ∀ b : Nat → ℝ, updBuf m.m_nr m.st th b (m.m_nr + i) = b (m.m_nr + i) := by
  intro b
  obtain ⟨hnr, _, _, hcr, _, hcc, hcv, _⟩ :=
    manager_facts ns reactions m hm i hi
  have hfalse : ¬((reactions.get ⟨i, hi⟩).isReversible = true) := by
    rw [hirr]
    simp
  have hcr0 : countSlot (m.m_nr + i) m.st.entries = 0 := by
    rw [hcr, if_neg (fun hc => hfalse hc.1)]
  have hcc0 : countIdx i m.st.toCopy = 0 := by
    rw [hcc, if_neg (fun hc => hfalse hc.1)]
  have hcv0 : countRev i m.st.revs = 0 := by
    rw [hcv, if_neg hfalse]
  unfold updBuf
  rw [phase3_not_hit m.m_nr i th m.st.revs
      ((countRev_eq_zero i m.st.revs).mp hcv0),
    phase2_not_hit m.m_nr i m.st.toCopy
      ((countIdx_eq_zero i m.st.toCopy).mp hcc0),
    phase1_not_hit th.state (m.m_nr + i) m.st.entries
      ((countSlot_eq_zero (m.m_nr + i) m.st.entries).mp hcr0)]

/-! ## Claim theorems: RateManager -/

/-- C1: for every reversible reaction, the final lnkb after update equals
the value left at its lnkb slot by the completed evaluate and copy
phases, which is the ln-rate of its rate law at the reverse-branch
temperature, minus ln Keq combined from the species Gibbs energies over
RT at the reverse-branch temperature per the reaction stoichiometry. -/
theorem rateManager_final_lnkb_eq_postcopy_sub_lnKeq (ns : Nat)
    (reactions : List Reaction) (m : RateManager) (th : Thermo)
    (hm : mkRateManager ns reactions = .ok m) (i : Nat)
    (hi : i < reactions.length)
    (hrev : (reactions.get ⟨i, hi⟩).isReversible = true) :
    (m.update th).lnkb i =
      postCopyBuf m th (m.m_nr + i) -
        lnKeq (th.gibbs ((reactions.get ⟨i, hi⟩).revSel.getT th.state))
          (reactions.get ⟨i, hi⟩).stoich
    ∧ postCopyBuf m th (m.m_nr + i) =
        evalRateLaw (reactions.get ⟨i, hi⟩).rateLaw
          ((reactions.get ⟨i, hi⟩).revSel.getT th.state) := by
  obtain ⟨hpost, hfinal⟩ :=
    updBuf_lnkb_rev_char ns reactions m th hm i hi hrev m.buf
  have hpc : postCopyBuf m th (m.m_nr + i) =
      evalRateLaw (reactions.get ⟨i, hi⟩).rateLaw
        ((reactions.get ⟨i, hi⟩).revSel.getT th.state) := hpost
  have hfin : (m.update th).lnkb i =
      evalRateLaw (reactions.get ⟨i, hi⟩).rateLaw
        ((reactions.get ⟨i, hi⟩).revSel.getT th.state) -
      lnKeq (th.gibbs ((reactions.get ⟨i, hi⟩).revSel.getT th.state))
        (reactions.get ⟨i, hi⟩).stoich := hfinal
  refine ⟨?_, hpc⟩
  rw [hfin, hpc]

/-- Witness for C1 on the sample reversible reaction. -/
theorem rateManager_final_lnkb_witness :
    (demoMgr.update demoTh).lnkb 0 =
      postCopyBuf demoMgr demoTh (demoMgr.m_nr + 0) -
        lnKeq (demoTh.gibbs (demoRxn.revSel.getT demoTh.state))
          demoRxn.stoich
    ∧ postCopyBuf demoMgr demoTh (demoMgr.m_nr + 0) =
        evalRateLaw demoRxn.rateLaw (demoRxn.revSel.getT demoTh.state) :=
  rateManager_final_lnkb_eq_postcopy_sub_lnKeq 1 [demoRxn] demoMgr demoTh
    rfl 0 (by decide) rfl

/-- C3 counterexample: for the irreversible reaction cexRxn the resolved
forward and reverse selectors are equal, yet immediately after the copy
phase the lnkb slot holds a value different from the lnkf slot, so the
claim read over every reaction with equal selectors is false. -/
theorem same_selector_copy_cex :
    cexRxn.fwdSel = cexRxn.revSel
    ∧ mkRateManager 0 [cexRxn] = .ok cexMgr
    ∧ postCopyBuf cexMgr demoTh (cexMgr.m_nr + 0) ≠
        postCopyBuf cexMgr demoTh 0 := by
  refine ⟨rfl, rfl, ?_⟩
  show (0 : ℝ) ≠ (1 : ℝ)
  exact zero_ne_one

/-- C3 (amended): for every reversible reaction whose resolved forward
selector equals its resolved reverse selector, lnkb immediately after the
copy phase equals lnkf at the same reaction index, and this copied value
is identical to the one re-evaluating the rate law at the reverse-branch
temperature would produce. -/
theorem same_selector_copy_eq_lnkf (ns : Nat) (reactions : List Reaction)
    (m : RateManager) (th : Thermo)
    (hm : mkRateManager ns reactions = .ok m) (i : Nat)
    (hi : i < reactions.length)
    (hrev : (reactions.get ⟨i, hi⟩).isReversible = true)
    (hsel : (reactions.get ⟨i, hi⟩).fwdSel = (reactions.get ⟨i, hi⟩).revSel) :
    postCopyBuf m th (m.m_nr + i) = postCopyBuf m th i
    ∧ postCopyBuf m th (m.m_nr + i) =
        evalRateLaw (reactions.get ⟨i, hi⟩).rateLaw
          ((reactions.get ⟨i, hi⟩).revSel.getT th.state) := by
  have h1 : postCopyBuf m th (m.m_nr + i) =
      evalRateLaw (reactions.get ⟨i, hi⟩).rateLaw
        ((reactions.get ⟨i, hi⟩).revSel.getT th.state) :=
    (updBuf_lnkb_rev_char ns reactions m th hm i hi hrev m.buf).1
  have h2 : postCopyBuf m th i =
      evalRateLaw (reactions.get ⟨i, hi⟩).rateLaw
        ((reactions.get ⟨i, hi⟩).fwdSel.getT th.state) :=
    (updBuf_lnkf_char ns reactions m th hm i hi m.buf).1
  refine ⟨?_, h1⟩
  rw [h1, h2, hsel]

/-- Witness for the amended C3 on the sample reversible reaction. -/
theorem same_selector_copy_eq_lnkf_witness :
    postCopyBuf demoMgr demoTh (demoMgr.m_nr + 0) =
      postCopyBuf demoMgr demoTh 0
    ∧ postCopyBuf demoMgr demoTh (demoMgr.m_nr + 0) =
        evalRateLaw demoRxn.rateLaw (demoRxn.revSel.getT demoTh.state) :=
  same_selector_copy_eq_lnkf 1 [demoRxn] demoMgr demoTh rfl 0 (by decide)
    rfl rfl

/-- C4: after construction, every reaction occupies exactly one
forward-group slot at its own index; every reversible reaction occupies
exactly one of the reverse-group slot at index plus reaction count or the
same-selector copy list, never both and never neither; irreversible
reactions occupy neither. -/
theorem rateManager_group_partition (ns : Nat) (reactions : List Reaction)
    (m : RateManager) (hm : mkRateManager ns reactions = .ok m) (i : Nat)
    (hi : i < reactions.length) :
    countSlot i m.st.entries = 1
    ∧ ((reactions.get ⟨i, hi⟩).isReversible = true →
        countSlot (m.m_nr + i) m.st.entries + countIdx i m.st.toCopy = 1)
    ∧ ((reactions.get ⟨i, hi⟩).isReversible = false →
        countSlot (m.m_nr + i) m.st.entries = 0 ∧
          countIdx i m.st.toCopy = 0) := by
  obtain ⟨hnr, hc1, _, hcr, _, hcc, _, _⟩ :=
    manager_facts ns reactions m hm i hi
  refine ⟨hc1, ?_, ?_⟩
  · intro hrev
    rw [hcr, hcc]
    by_cases hsel : (reactions.get ⟨i, hi⟩).fwdSel =
        (reactions.get ⟨i, hi⟩).revSel
    · rw [if_neg (fun hc => hc.2 hsel), if_pos ⟨hrev, hsel⟩]
    · rw [if_pos ⟨hrev, hsel⟩, if_neg (fun hc => hsel hc.2)]
  · intro hirr
    have hfalse : ¬((reactions.get ⟨i, hi⟩).isReversible = true) := by
      rw [hirr]
      simp
    rw [hcr, hcc, if_neg (fun hc => hfalse hc.1),
      if_neg (fun hc => hfalse hc.1)]
    exact ⟨rfl, rfl⟩

/-- Witness for C4 on the sample reversible reaction. -/
theorem rateManager_group_partition_witness :
    countSlot 0 demoMgr.st.entries = 1
    ∧ (demoRxn.isReversible = true →
        countSlot (demoMgr.m_nr + 0) demoMgr.st.entries +
          countIdx 0 demoMgr.st.toCopy = 1)
    ∧ (demoRxn.isReversible = false →
        countSlot (demoMgr.m_nr + 0) demoMgr.st.entries = 0 ∧
          countIdx 0 demoMgr.st.toCopy = 0) :=
  rateManager_group_partition 1 [demoRxn] demoMgr rfl 0 (by decide)

/-- C5: RateManager construction fails if and only if some reaction
rate law has an unregistered runtime kind; on success one block is
allocated and zero-initialized, and on failure no manager and hence no
block is produced. -/
theorem rateManager_construction_error_iff (ns : Nat)
    (reactions : List Reaction) :
    ((∃ r ∈ reactions, rateLawKind r.rateLaw = none) ↔
      mkRateManager ns reactions = .error .invalidRateLaw)
    ∧ (∀ m, mkRateManager ns reactions = .ok m →
        m.m_nr = reactions.length ∧ ∀ s, m.buf s = 0) := by
  constructor
  · constructor
    · intro h
      unfold mkRateManager
      rw [addReactionsFrom_error reactions.length reactions 0 emptyRMState h]
    · intro h
      by_contra hno
      push_neg at hno
      have hcl : ∀ r ∈ reactions, (rateLawKind r.rateLaw).isSome := by
        intro r hr
        exact Option.ne_none_iff_isSome.mp (hno r hr)
      have heq := addReactionsFrom_eq_ok reactions.length reactions 0
        emptyRMState hcl
      unfold mkRateManager at h
      rw [heq] at h
      exact absurd h (by simp)
  · intro m hm
    obtain ⟨hnr, hbuf, _, _⟩ := mkRateManager_ok_facts ns reactions m hm
    exact ⟨hnr, fun s => by rw [hbuf]⟩

/-- Witness for C5: a list with an expRat33 law fails, a registered list
succeeds with the zeroed block. -/
theorem rateManager_construction_error_iff_witness :
    mkRateManager 1 [badRxn] = .error .invalidRateLaw
    ∧ (demoMgr.m_nr = [demoRxn].length ∧ ∀ s, demoMgr.buf s = 0) :=
  ⟨(rateManager_construction_error_iff 1 [badRxn]).1.mp
      ⟨badRxn, List.mem_singleton_self badRxn, rfl⟩,
    (rateManager_construction_error_iff 1 [demoRxn]).2 demoMgr rfl⟩

/-- C9: update is deterministic: a second update call with the same
thermodynamic input leaves every lnkf and lnkb slot with the value the
first call produced. -/
theorem rateManager_update_deterministic (ns : Nat)
    (reactions : List Reaction) (m : RateManager) (th : Thermo)
    (hm : mkRateManager ns reactions = .ok m) (s : Nat)
    (hs : s < 2 * m.m_nr) :
    ((m.update th).update th).buf s = (m.update th).buf s := by
  obtain ⟨hnr, _, _, _⟩ := mkRateManager_ok_facts ns reactions m hm
  show updBuf m.m_nr m.st th (updBuf m.m_nr m.st th m.buf) s =
    updBuf m.m_nr m.st th m.buf s
  by_cases hlow : s < m.m_nr
  · have hi : s < reactions.length := by omega
    rw [(updBuf_lnkf_char ns reactions m th hm s hi
        (updBuf m.m_nr m.st th m.buf)).2,
      (updBuf_lnkf_char ns reactions m th hm s hi m.buf).2]
  · have hi : s - m.m_nr < reactions.length := by omega
    have hsplit : s = m.m_nr + (s - m.m_nr) := by omega
    rw [hsplit]
    cases hrev : (reactions.get ⟨s - m.m_nr, hi⟩).isReversible with
    | true =>
      rw [(updBuf_lnkb_rev_char ns reactions m th hm (s - m.m_nr) hi hrev
          (updBuf m.m_nr m.st th m.buf)).2,
        (updBuf_lnkb_rev_char ns reactions m th hm (s - m.m_nr) hi hrev
          m.buf).2]
    | false =>
      rw [updBuf_lnkb_irrev_char ns reactions m th hm (s - m.m_nr) hi hrev
        (updBuf m.m_nr m.st th m.buf)]

/-- Witness for C9 on the sample reversible reaction at the lnkb slot. -/
theorem rateManager_update_deterministic_witness :
    1 < 2 * demoMgr.m_nr
    ∧ ((demoMgr.update demoTh).update demoTh).buf 1 =
        (demoMgr.update demoTh).buf 1 :=
  ⟨by decide,
    rateManager_update_deterministic 1 [demoRxn] demoMgr demoTh rfl 1
      (by decide)⟩

end MppKinetics
